import Mathlib

set_option maxRecDepth 4000

/-!
Verification development for the paklib PAK archive engine (src/pak.hpp).

The archive on disk is modelled as a list of bytes (List Nat, each < 256 where it
matters).  File handles are modelled away: opening a byte source that exists
yields its byte list, a missing source is `none`.  Machine integers are Nat with
an explicit `% 4294967296` wherever the C++ code stores into a uint32 field.
All definitions are translated from the source in src/pak.hpp; divergences of
the source from its spec are surfaced as theorems below, not patched here.
-/

namespace Paklib

/-- Little endian byte encoding of the low 32 bits of a natural number, as the
four bytes a uint32 field occupies in the packed on-disk structs. -/
def le32 (x : Nat) : List Nat :=
  [x % 256, x / 256 % 256, x / 65536 % 256, x / 16777216 % 256]

/-- Decode a 32 bit little endian value from the first four bytes of a list
(reading a uint32 field of a packed struct from the archive bytes). -/
def decodeLe32 : List Nat → Nat
  | b0 :: b1 :: b2 :: b3 :: _ => b0 + 256 * b1 + 65536 * b2 + 16777216 * b3
  | _ => 0

/-- Model of C strncpy(dst, src, n) into a zero filled buffer, viewed as the
resulting C string: copying stops at the first NUL byte of src and after at
most n bytes. -/
def cstrTrunc (src : List Nat) (n : Nat) : List Nat :=
  (src.takeWhile (fun b => decide (b ≠ 0))).take n

/-- A name stored into the fixed 56 byte name field of pak_file_t: the string
bytes followed by zero fill (strncpy zero-pads up to the field width). -/
def padName (s : List Nat) : List Nat :=
  s ++ List.replicate (56 - s.length) 0

/-- Decoding of a 56 byte name field into a string, as done by the reader:
memcpy of MAX_PAK_NAME_LEN bytes into a zero terminated buffer of 57 bytes and
construction of a std::string from it, which stops at the first NUL byte. -/
def entryName (nameField : List Nat) : List Nat :=
  (nameField.take 56).takeWhile (fun b => decide (b ≠ 0))

/-- Error codes of the reader (enum PakError in pak.hpp). -/
inductive PakError where
  | NoError
  | OpenFailed
  | InvalidHeader
  | InvalidFileEntry
deriving DecidableEq, Repr

/-- One 64 byte file entry record (struct pak_file_t): 56 name bytes, a uint32
absolute data offset and a uint32 data size. -/
@[ext]
structure pak_file_t where
  name : List Nat
  offset : Nat
  size : Nat
deriving DecidableEq, Repr

/-- A value-initialized pak_file_t, as produced by std::vector::resize. -/
def zeroEntry : pak_file_t :=
  ⟨List.replicate 56 0, 0, 0⟩

/-- Wire encoding of one entry record (64 bytes when the name field is the
full 56 bytes). -/
def encodeEntry (e : pak_file_t) : List Nat :=
  e.name ++ le32 e.offset ++ le32 e.size

/-- Decode one 64 byte entry record from a byte slice, reading the packed
struct fields at their fixed offsets. -/
def decodeEntry (bytes : List Nat) : pak_file_t :=
  ⟨bytes.take 56, decodeLe32 (bytes.drop 56), decodeLe32 (bytes.drop 60)⟩

/-- Reading n consecutive 64 byte entry records starting at byte position pos,
as the single bulk fread into the resized entry vector does. -/
def readEntries (bytes : List Nat) : Nat → Nat → List pak_file_t
  | _, 0 => []
  | pos, n + 1 => decodeEntry ((bytes.drop pos).take 64) :: readEntries bytes (pos + 64) n

/-- Lookup in the name index.  The index is modelled as an association list;
mapFind returns the first binding of the key, matching the unique-key lookup of
std::unordered_map. -/
def mapFind : List (List Nat × Nat) → List Nat → Option Nat
  | [], _ => none
  | (k, v) :: rest, key => if k = key then some v else mapFind rest key

/-- Model of std::unordered_map::insert: the insertion is a no-op when the key
is already present (the earlier binding is kept). -/
def mapInsert (m : List (List Nat × Nat)) (k : List Nat) (v : Nat) : List (List Nat × Nat) :=
  match mapFind m k with
  | some _ => m
  | none => (k, v) :: m

/-- First-some choice on options, used to state how the populated index
resolves a key. -/
def optOr : Option Nat → Option Nat → Option Nat
  | some v, _ => some v
  | none, b => b

/-- Index of the first entry of the table whose decoded name equals k. -/
def firstNameIdx : List pak_file_t → List Nat → Option Nat
  | [], _ => none
  | f :: rest, k =>
    if entryName f.name = k then some 0
    else (firstNameIdx rest k).map (· + 1)

/-- The loop in pak_archive::open that populates the lookup map: it walks the
loaded entries in table order, decoding each name field and inserting
(name, index) into the map. -/
def populateLoop : List pak_file_t → Nat → List (List Nat × Nat) → List (List Nat × Nat)
  | [], _, m => m
  | f :: rest, i, m => populateLoop rest (i + 1) (mapInsert m (entryName f.name) i)

/-- The lookup map built from a loaded entry table. -/
def populateLookup (files : List pak_file_t) : List (List Nat × Nat) :=
  populateLoop files 0 []

/-- Body of the 8 KiB chunk copy loop, with an explicit fuel argument so the
recursion is structural (every iteration consumes at least one byte, so sz
units of fuel always suffice; the fuel changes nothing else). -/
def chunkIter (bytes : List Nat) : Nat → Nat → Nat → List Nat
  | _, _, 0 => []
  | pos, sz, fuel + 1 =>
    if 0 < sz then
      (bytes.drop pos).take (min 8192 sz) ++
        chunkIter bytes (pos + min 8192 sz) (sz - min 8192 sz) fuel
    else
      []

/-- The 8 KiB chunk copy loop shared by pak_archive::extract_file and the data
pass of pak_builder::write: while bytes remain, it transfers
min(8192, remaining) bytes from the current position and advances.  When the
source holds the requested bytes this is exactly the byte slice transferred;
short reads (return values are ignored by the source code) would transfer
stale buffer contents, which this model does not represent. -/
def chunkLoop (bytes : List Nat) (pos : Nat) (sz : Nat) : List Nat :=
  chunkIter bytes pos sz sz

/-- In-memory state of a pak_archive object: whether m_file is non-null, the
loaded entry vector m_files, the error code m_errno, and the name index
m_lookupMap. -/
structure pak_archive where
  filePtr : Bool
  files : List pak_file_t
  m_errno : PakError
  lookupMap : List (List Nat × Nat)
deriving DecidableEq, Repr

/-- A default constructed pak_archive: null file, empty table, NoError, empty
index. -/
def pak_archive.init : pak_archive :=
  ⟨false, [], PakError.NoError, []⟩

/-- pak_archive::close: release the handle, clear the entry table and the
lookup map.  The error code field is not touched by close in the source. -/
def pak_archive.close (st : pak_archive) : pak_archive :=
  { st with filePtr := false, files := [], lookupMap := [] }

/-- pak_archive::good: the file handle is non-null and the error code is
NoError. -/
def pak_archive.good (st : pak_archive) : Bool :=
  st.filePtr && decide (st.m_errno = PakError.NoError)

/-- pak_archive::last_error. -/
def pak_archive.last_error (st : pak_archive) : PakError :=
  st.m_errno

/-- pak_archive::file_count: the number of loaded entries. -/
def pak_archive.file_count (st : pak_archive) : Nat :=
  st.files.length

/-- Outcome of pak_archive::open: either a bool return value together with the
object state, or propagation of the std::out_of_range exception that
m_files.at(0) throws when the resized entry vector is empty. -/
inductive OpenOutcome where
  | ret (b : Bool) (st : pak_archive)
  | thrown (st : pak_archive)
deriving DecidableEq, Repr

/-- pak_archive::open, step by step from the source.  The byte source is
`none` when fopen fails and `some bytes` otherwise.  Steps: close any previous
archive; fopen; measure the length; reject lengths below the 12 byte header;
read the header and check the PACK magic; seek to the table offset; resize the
entry vector to size/64 entries; bulk-fread size bytes into it (the fread
fails when fewer than size bytes are available past the offset, and the call
on an empty vector throws from m_files.at(0) before any read); decode every
name field and populate the lookup map.  Note that on the failure returns the
source fcloses the handle but leaves the m_file pointer set, and on the table
read failure the entry vector keeps its resized zero-filled contents.  The
source has no check that size is a multiple of 64; when it is not, the fread
writes size bytes into a buffer of 64*(size/64) bytes, a heap overflow; this
model keeps the size/64 complete records that land inside the buffer. -/
def pak_archive.openFile (st : pak_archive) (src : Option (List Nat)) : OpenOutcome :=
  let st0 := st.close
  match src with
  | none => OpenOutcome.ret false { st0 with m_errno := PakError.OpenFailed }
  | some bytes =>
    let st1 : pak_archive := { st0 with filePtr := true, m_errno := PakError.NoError }
    if bytes.length < 12 then
      OpenOutcome.ret false { st1 with m_errno := PakError.InvalidHeader }
    else if bytes.take 4 ≠ [80, 65, 67, 75] then
      OpenOutcome.ret false { st1 with m_errno := PakError.InvalidHeader }
    else
      let hoffset := decodeLe32 (bytes.drop 4)
      let hsize := decodeLe32 (bytes.drop 8)
      let n := hsize / 64
      let st2 : pak_archive := { st1 with files := List.replicate n zeroEntry }
      if n = 0 then
        OpenOutcome.thrown st2
      else if ¬ hoffset + hsize ≤ bytes.length then
        OpenOutcome.ret false { st2 with m_errno := PakError.InvalidFileEntry }
      else
        let fs := readEntries bytes hoffset n
        OpenOutcome.ret true
          { filePtr := true, files := fs, m_errno := PakError.NoError,
            lookupMap := populateLookup fs }

/-- pak_archive::read_file: look the name up; on a hit, compute
toread = min(entry size, caller size) -- which the source then never uses --
seek to the entry offset and fread `size` (the caller max) bytes in one item.
The fread succeeds only when size is positive and size bytes are available at
the offset; the bool result and, on success, the bytes placed in the caller
buffer are returned (on failure the buffer contents are unspecified and
modelled as empty). -/
def pak_archive.read_file (st : pak_archive) (bytes : List Nat) (pak_path : List Nat)
    (size : Nat) : Bool × List Nat :=
  match mapFind st.lookupMap pak_path with
  | some idx =>
    let f := st.files.getD idx zeroEntry
    let fz := f.size
    let toread := if fz < size then fz else size
    if 0 < size ∧ f.offset + size ≤ bytes.length then
      (true, (bytes.drop f.offset).take size)
    else
      (false, [])
  | none => (false, [])

/-- pak_archive::extract_file: look the name up; on a hit, stream entry.size
bytes from the entry offset to the output sink with the 8 KiB chunk loop and
report success.  The sink is modelled as the byte list written to it; creation
of the sink is modelled as succeeding.  A miss returns failure (none). -/
def pak_archive.extract_file (st : pak_archive) (bytes : List Nat) (pak_path : List Nat) :
    Option (List Nat) :=
  match mapFind st.lookupMap pak_path with
  | some idx =>
    let f := st.files.getD idx zeroEntry
    some (chunkLoop bytes f.offset f.size)
  | none => none

/-- pak_archive::stat: pure lookup returning (size, offset) on a hit. -/
def pak_archive.stat (st : pak_archive) (pak_path : List Nat) : Option (Nat × Nat) :=
  match mapFind st.lookupMap pak_path with
  | some idx => some ((st.files.getD idx zeroEntry).size, (st.files.getD idx zeroEntry).offset)
  | none => none

/-- Sequential enumeration from begin() to end(): the iterator walks indices
0..file_count, dereferencing each to the pair (decoded name, (offset, size)). -/
def pak_archive.enumerate (st : pak_archive) : List (List Nat × Nat × Nat) :=
  (List.range st.files.length).map fun i =>
    let f := st.files.getD i zeroEntry
    (entryName f.name, f.offset, f.size)

/-- A pending file of the builder (struct pak_builder::file_t): the byte
source it was registered from (modelled by its content), the stored archive
name (the char[57] buffer filled by strncpy, viewed as its C string), the
offset assigned during write, and the size snapshotted at registration. -/
structure file_t where
  disk_content : List Nat
  pak_path : List Nat
  offset : Nat
  size : Nat
deriving DecidableEq, Repr

/-- State of a pak_builder: the pending file list m_files. -/
structure pak_builder where
  m_files : List file_t
deriving DecidableEq, Repr

/-- pak_builder::add_file: reject names longer than 56 bytes, then reject
sources whose byte length exceeds UINT32_MAX; otherwise append one pending
record whose size is the snapshotted source length and whose stored name is
the strncpy image of the given name in a zero filled 57 byte buffer. -/
def pak_builder.add_file (b : pak_builder) (disk_content : List Nat) (pak_path : List Nat) :
    Bool × pak_builder :=
  if 56 < pak_path.length then
    (false, b)
  else if 4294967295 < disk_content.length then
    (false, b)
  else
    (true, ⟨b.m_files ++ [⟨disk_content, cstrTrunc pak_path 56, 0, disk_content.length⟩]⟩)

/-- The table pass of pak_builder::write: walking the pending files in order
with a cumulative size_t offset curoff, it emits for each one the wire entry
record, whose name field is the strncpy image of the stored name, and whose
offset and size fields are uint32 stores (hence reduced modulo 2 to the 32). -/
def layoutEntries : List file_t → Nat → List pak_file_t
  | [], _ => []
  | f :: rest, curoff =>
    ⟨padName (cstrTrunc f.pak_path 56), curoff % 4294967296, f.size % 4294967296⟩
      :: layoutEntries rest (curoff + f.size)

/-- The side effect of the table pass on the pending list: each file_t gets
its assigned offset stored in its (size_t, hence exact) offset field. -/
def assignOffsets : List file_t → Nat → List file_t
  | [], _ => []
  | f :: rest, curoff => { f with offset := curoff } :: assignOffsets rest (curoff + f.size)

/-- Model of a seekp followed by a write of data at byte position pos of an
output stream whose bytes so far are buf: bytes before pos are kept, a gap
past the current end is zero filled, data overwrites from pos on, and any
older bytes past the written range are kept. -/
def storeBytes (buf : List Nat) (pos : Nat) (data : List Nat) : List Nat :=
  buf.take pos ++ List.replicate (pos - buf.length) 0 ++ data ++ buf.drop (pos + data.length)

/-- The data pass of pak_builder::write: for each pending file, seekp to its
assigned offset and stream its content through the 8 KiB chunk loop.  Each
source is modelled as readable (istream construction succeeding). -/
def writeData : List Nat → List file_t → List Nat
  | out, [] => out
  | out, f :: rest => writeData (storeBytes out f.offset (chunkLoop f.disk_content 0 f.size)) rest

/-- pak_builder::write: emit the 12 byte header (PACK magic, table offset 12,
table size count*64 stored into a uint32), then the entry table computed with
cumulative offsets starting at 12 + header table size, then the data pass.
Returns the output bytes and the builder state after the call (the pending
list with offsets assigned; the source never clears it).  The output stream is
modelled as creatable and every pending source as readable, which is the
successful-return path of the source. -/
def pak_builder.write (b : pak_builder) : List Nat × pak_builder :=
  let hsize := 64 * b.m_files.length % 4294967296
  let table := layoutEntries b.m_files (12 + hsize)
  let updated := assignOffsets b.m_files (12 + hsize)
  let out0 := [80, 65, 67, 75] ++ le32 12 ++ le32 hsize ++ (table.map encodeEntry).flatten
  (writeData out0 updated, ⟨updated⟩)

/-- Registration of a list of (archive name, content) pairs through
pak_builder::add_file, as the packing loop of main.cpp does (the loop goes on
regardless of individual failures; the bool collects whether every
registration succeeded). -/
def registerAll (b : pak_builder) : List (List Nat × List Nat) → Bool × pak_builder
  | [] => (true, b)
  | p :: rest =>
    let r := pak_builder.add_file b p.2 p.1
    let r2 := registerAll r.2 rest
    (r.1 && r2.1, r2.2)

/-- Sum of the snapshotted sizes of a pending list segment. -/
def sumSizes (fs : List file_t) : Nat :=
  (fs.map (fun f => f.size)).sum

/-- A default file_t used with List.getD. -/
def zeroFile : file_t := ⟨[], [], 0, 0⟩

/-- The pending record created by a successful add_file of the pair
(archive name, content), for names that need no strncpy truncation. -/
def toPending (p : List Nat × List Nat) : file_t :=
  ⟨p.2, p.1, 0, p.2.length⟩

/-- An archive built from two files registered under the same name [97] with
different one byte contents. -/
def dupArchive : List Nat :=
  ((registerAll ⟨[]⟩ [([97], [1]), ([97], [2])]).2.write).1

/-- The same two entry duplicate name archive, used for the lookup order
analysis. -/
def c3Archive : List Nat :=
  ((registerAll ⟨[]⟩ [([97], [1]), ([97], [2])]).2.write).1

/-- The reader state produced by successfully opening dupArchive. -/
def dupState : pak_archive :=
  ⟨true, readEntries dupArchive 12 2, PakError.NoError,
    populateLookup (readEntries dupArchive 12 2)⟩

/-- The reader state produced by successfully opening c3Archive. -/
def c3State : pak_archive :=
  ⟨true, readEntries c3Archive 12 2, PakError.NoError,
    populateLookup (readEntries c3Archive 12 2)⟩

/-- An archive holding one file named [97] whose content is the single byte
[1]; its only entry has size 1 at offset 76 and the archive is 77 bytes. -/
def c4Archive : List Nat :=
  ((registerAll ⟨[]⟩ [([97], [1])]).2.write).1

/-- The reader state produced by successfully opening c4Archive. -/
def c4State : pak_archive :=
  ⟨true, readEntries c4Archive 12 1, PakError.NoError,
    populateLookup (readEntries c4Archive 12 1)⟩

/-- A 12 byte file whose header claims a 64 byte entry table that is not
present: magic PACK, table offset 12, table size 64, no further bytes. -/
def c5Bytes : List Nat :=
  [80, 65, 67, 75] ++ le32 12 ++ le32 64

/-- A 77 byte file whose header claims a 65 byte entry table (not a multiple
of the 64 byte record size) and whose remaining 65 bytes are present. -/
def c6Bytes : List Nat :=
  [80, 65, 67, 75] ++ le32 12 ++ le32 65 ++ List.replicate 65 7

/-- The reader state left behind by the failed open of c5Bytes: the entry
vector was resized to one zero filled record before the table read failed. -/
def c5State : pak_archive :=
  ⟨true, List.replicate 1 zeroEntry, PakError.InvalidFileEntry, []⟩

/-- The reader state produced by successfully opening c6Bytes. -/
def c6State : pak_archive :=
  ⟨true, readEntries c6Bytes 12 1, PakError.NoError,
    populateLookup (readEntries c6Bytes 12 1)⟩

/-- A two element pending list whose first file has the maximal uint32 size,
so that the second cumulative offset overflows 32 bits. -/
def c7Pending : List file_t :=
  [⟨[], [97], 0, 4294967295⟩, ⟨[], [98], 0, 1⟩]

/-- A builder holding one registered one byte file, used for the layout
witness. -/
def c7Builder : pak_builder :=
  (pak_builder.add_file ⟨[]⟩ [5] [97]).2

/-- A builder holding one registered one byte file. -/
def c9Builder : pak_builder :=
  (pak_builder.add_file ⟨[]⟩ [5] [97]).2

/-! Basic lemmas about the byte level helpers. -/

theorem le32_length (x : Nat) : (le32 x).length = 4 := rfl

theorem decodeLe32_le32 (x : Nat) (r : List Nat) :
    decodeLe32 (le32 x ++ r) = x % 4294967296 := by
  simp only [le32, List.cons_append, List.nil_append, decodeLe32]
  omega

theorem chunkIter_eq (bytes : List Nat) (fuel : Nat) :
    ∀ pos sz, sz ≤ fuel → chunkIter bytes pos sz fuel = (bytes.drop pos).take sz := by
  induction fuel with
  | zero =>
    intro pos sz h
    rw [Nat.le_zero.mp h]
    rfl
  | succ n ih =>
    intro pos sz h
    rw [chunkIter]
    split
    · next hpos =>
      rw [ih (pos + min 8192 sz) (sz - min 8192 sz) (by omega)]
      have hdp : bytes.drop (pos + min 8192 sz) = (bytes.drop pos).drop (min 8192 sz) := by
        rw [List.drop_drop]
      rw [hdp]
      have hsz : sz = min 8192 sz + (sz - min 8192 sz) := by omega
      conv_rhs => rw [hsz, List.take_add]
    · next hpos =>
      have : sz = 0 := by omega
      simp [this]

theorem chunkLoop_eq (bytes : List Nat) (pos sz : Nat) :
    chunkLoop bytes pos sz = (bytes.drop pos).take sz :=
  chunkIter_eq bytes sz pos sz (Nat.le_refl sz)

theorem storeBytes_append (buf data : List Nat) :
    storeBytes buf buf.length data = buf ++ data := by
  simp [storeBytes, List.drop_eq_nil_of_le (by omega : buf.length ≤ buf.length + data.length)]

/-! Lemmas about names: strncpy truncation, padding to the 56 byte field and
decoding back. -/

theorem cstrTrunc_eq_self (s : List Nat) (h1 : s.length ≤ 56) (h2 : 0 ∉ s) :
    cstrTrunc s 56 = s := by
  unfold cstrTrunc
  rw [List.takeWhile_eq_self_iff.mpr, List.take_of_length_le h1]
  intro x hx
  simp only [decide_eq_true_eq]
  exact fun he => h2 (he ▸ hx)

theorem cstrTrunc_length (s : List Nat) (n : Nat) : (cstrTrunc s n).length ≤ n := by
  unfold cstrTrunc
  exact (List.length_take _ _).le.trans (Nat.min_le_left _ _)

theorem padName_length (s : List Nat) (h : s.length ≤ 56) : (padName s).length = 56 := by
  simp [padName]
  omega

theorem takeWhile_append_all (p : Nat → Bool) (l1 l2 : List Nat) (h : ∀ x ∈ l1, p x) :
    (l1 ++ l2).takeWhile p = l1 ++ l2.takeWhile p := by
  induction l1 with
  | nil => simp
  | cons a t ih =>
    simp only [List.cons_append, List.takeWhile_cons]
    rw [h a (by simp)]
    simp only [if_true]
    rw [ih (fun x hx => h x (by simp [hx]))]

theorem takeWhile_replicate_zero (k : Nat) :
    (List.replicate k 0).takeWhile (fun b => decide (b ≠ 0)) = [] := by
  cases k with
  | zero => rfl
  | succ m => simp [List.replicate_succ, List.takeWhile_cons]

theorem entryName_padName (s : List Nat) (h1 : s.length ≤ 56) (h2 : 0 ∉ s) :
    entryName (padName s) = s := by
  unfold entryName padName
  rw [List.take_of_length_le (by simp; omega)]
  rw [takeWhile_append_all _ _ _ (by
    intro x hx
    simp only [decide_eq_true_eq]
    exact fun he => h2 (he ▸ hx))]
  rw [takeWhile_replicate_zero]
  simp

/-! Lemmas about the lookup map: how mapInsert and the populate loop resolve
keys.  The punchline is that the populated index resolves every name to the
EARLIEST entry with that decoded name, since std::unordered_map::insert keeps
an existing binding. -/

theorem mapFind_mapInsert (m : List (List Nat × Nat)) (k k2 : List Nat) (v : Nat) :
    mapFind (mapInsert m k v) k2 =
      if k = k2 then optOr (mapFind m k2) (some v) else mapFind m k2 := by
  unfold mapInsert
  cases hm : mapFind m k with
  | some w =>
    by_cases he : k = k2
    · subst he
      rw [if_pos rfl, hm]
      rfl
    · rw [if_neg he]
  | none =>
    simp only [mapFind]
    by_cases he : k = k2
    · subst he
      rw [if_pos rfl, if_pos rfl, hm]
      rfl
    · rw [if_neg he, if_neg he]

theorem populateLoop_find (fs : List pak_file_t) (i : Nat) (m : List (List Nat × Nat))
    (k : List Nat) :
    mapFind (populateLoop fs i m) k =
      optOr (mapFind m k) ((firstNameIdx fs k).map (· + i)) := by
  induction fs generalizing i m with
  | nil =>
    simp only [populateLoop, firstNameIdx, Option.map_none']
    cases mapFind m k <;> simp [optOr]
  | cons f rest ih =>
    simp only [populateLoop, firstNameIdx]
    rw [ih, mapFind_mapInsert]
    by_cases he : entryName f.name = k
    · rw [if_pos he, if_pos he]
      cases mapFind m k <;> simp [optOr]
    · rw [if_neg he, if_neg he]
      cases mapFind m k with
      | some w => simp [optOr]
      | none =>
        cases firstNameIdx rest k with
        | none => simp [optOr]
        | some j => simp [optOr]; omega

theorem populateLookup_find (fs : List pak_file_t) (k : List Nat) :
    mapFind (populateLookup fs) k = firstNameIdx fs k := by
  unfold populateLookup
  rw [populateLoop_find]
  cases firstNameIdx fs k <;> simp [mapFind, optOr]

theorem firstNameIdx_nodup (fs : List pak_file_t)
    (h : (fs.map (fun f => entryName f.name)).Nodup) (i : Nat) (hi : i < fs.length) :
    firstNameIdx fs (entryName ((fs.getD i zeroEntry)).name) = some i := by
  induction fs generalizing i with
  | nil => simp at hi
  | cons f rest ih =>
    cases i with
    | zero => simp [firstNameIdx, List.getD]
    | succ j =>
      have hj : j < rest.length := by simpa using hi
      have hgd : (f :: rest).getD (j + 1) zeroEntry = rest.getD j zeroEntry := by
        simp [List.getD]
      rw [hgd]
      simp only [firstNameIdx]
      have hmem : rest.getD j zeroEntry ∈ rest := by
        have hg : rest.getD j zeroEntry = rest.get ⟨j, hj⟩ := by
          simp [List.getD_eq_getElem?_getD, List.getElem?_eq_getElem hj]
        rw [hg]
        exact List.get_mem rest j hj
      have hne : ¬ entryName f.name = entryName ((rest.getD j zeroEntry)).name := by
        have hnotin := (List.nodup_cons.mp h).1
        intro he
        apply hnotin
        show entryName f.name ∈ List.map (fun f => entryName f.name) rest
        rw [he]
        exact List.mem_map_of_mem _ hmem
      rw [if_neg hne, ih (List.nodup_cons.mp h).2 j hj]
      rfl

/-! Lemmas about wire encoding of the entry table and reading it back. -/

theorem encodeEntry_length (e : pak_file_t) (hn : e.name.length = 56) :
    (encodeEntry e).length = 64 := by
  simp [encodeEntry, le32, hn]

theorem decodeEntry_encodeEntry (e : pak_file_t) (r : List Nat)
    (hn : e.name.length = 56) (ho : e.offset < 4294967296) (hs : e.size < 4294967296) :
    decodeEntry ((encodeEntry e ++ r).take 64) = e := by
  have hlen : (encodeEntry e).length = 64 := encodeEntry_length e hn
  rw [List.take_left' hlen]
  refine pak_file_t.ext ?_ ?_ ?_
  · show (e.name ++ le32 e.offset ++ le32 e.size).take 56 = e.name
    rw [List.append_assoc, List.take_left' hn]
  · show decodeLe32 ((e.name ++ le32 e.offset ++ le32 e.size).drop 56) = e.offset
    rw [List.append_assoc, List.drop_left' hn, decodeLe32_le32, Nat.mod_eq_of_lt ho]
  · show decodeLe32 ((e.name ++ le32 e.offset ++ le32 e.size).drop 60) = e.size
    have h60 : (e.name ++ le32 e.offset).length = 60 := by simp [le32, hn]
    rw [List.drop_left' h60, ← List.append_nil (le32 e.size), decodeLe32_le32,
      Nat.mod_eq_of_lt hs]

theorem readEntries_append (pre post : List Nat) (es : List pak_file_t)
    (h : ∀ e ∈ es, e.name.length = 56 ∧ e.offset < 4294967296 ∧ e.size < 4294967296) :
    readEntries (pre ++ (es.map encodeEntry).flatten ++ post) pre.length es.length = es := by
  induction es generalizing pre with
  | nil => simp [readEntries]
  | cons e rest ih =>
    obtain ⟨hn, ho, hs⟩ := h e (by simp)
    simp only [List.map_cons, List.flatten_cons, List.length_cons, readEntries]
    congr 1
    · have hb : pre ++ (encodeEntry e ++ (rest.map encodeEntry).flatten) ++ post =
          pre ++ (encodeEntry e ++ ((rest.map encodeEntry).flatten ++ post)) := by
        simp [List.append_assoc]
      rw [hb, List.drop_left' rfl]
      exact decodeEntry_encodeEntry e _ hn ho hs
    · have hb : pre ++ (encodeEntry e ++ (rest.map encodeEntry).flatten) ++ post =
          (pre ++ encodeEntry e) ++ (rest.map encodeEntry).flatten ++ post := by
        simp [List.append_assoc]
      have hl : pre.length + 64 = (pre ++ encodeEntry e).length := by
        simp [encodeEntry_length e hn]
      rw [hb, hl, ih _ (fun q hq => h q (by simp [hq]))]

/-! Lemmas about the builder: registration, the layout pass, the offset
assignment and the data pass. -/

theorem add_file_ok (b : pak_builder) (content name : List Nat)
    (h1 : name.length ≤ 56) (h2 : 0 ∉ name) (h3 : content.length ≤ 4294967295) :
    pak_builder.add_file b content name =
      (true, ⟨b.m_files ++ [⟨content, name, 0, content.length⟩]⟩) := by
  unfold pak_builder.add_file
  rw [if_neg (by omega), if_neg (by omega), cstrTrunc_eq_self name h1 h2]

theorem registerAll_valid (inputs : List (List Nat × List Nat)) (b : pak_builder)
    (h : ∀ p ∈ inputs, p.1.length ≤ 56 ∧ 0 ∉ p.1 ∧ p.2.length ≤ 4294967295) :
    registerAll b inputs =
      (true, ⟨b.m_files ++ inputs.map toPending⟩) := by
  induction inputs generalizing b with
  | nil => simp [registerAll]
  | cons p rest ih =>
    obtain ⟨h1, h2, h3⟩ := h p (by simp)
    simp only [registerAll, add_file_ok b p.2 p.1 h1 h2 h3]
    rw [ih _ (fun q hq => h q (by simp [hq]))]
    simp [toPending]

theorem layoutEntries_length (fs : List file_t) (c : Nat) :
    (layoutEntries fs c).length = fs.length := by
  induction fs generalizing c with
  | nil => rfl
  | cons f rest ih => simp [layoutEntries, ih]

theorem layoutEntries_mem (fs : List file_t) (c : Nat) (e : pak_file_t)
    (he : e ∈ layoutEntries fs c) :
    (∃ f ∈ fs, e.name = padName (cstrTrunc f.pak_path 56)) ∧
      e.offset < 4294967296 ∧ e.size < 4294967296 := by
  induction fs generalizing c with
  | nil => simp [layoutEntries] at he
  | cons f rest ih =>
    simp only [layoutEntries, List.mem_cons] at he
    cases he with
    | inl h =>
      subst h
      exact ⟨⟨f, by simp⟩, Nat.mod_lt _ (by omega), Nat.mod_lt _ (by omega)⟩
    | inr h =>
      obtain ⟨⟨g, hg, hgn⟩, h1, h2⟩ := ih _ h
      exact ⟨⟨g, by simp [hg], hgn⟩, h1, h2⟩

theorem assignOffsets_length (fs : List file_t) (c : Nat) :
    (assignOffsets fs c).length = fs.length := by
  induction fs generalizing c with
  | nil => rfl
  | cons f rest ih => simp [assignOffsets, ih]

theorem assignOffsets_strip (fs : List file_t) (c : Nat) :
    (assignOffsets fs c).map (fun f => (f.disk_content, f.pak_path, f.size)) =
      fs.map (fun f => (f.disk_content, f.pak_path, f.size)) := by
  induction fs generalizing c with
  | nil => rfl
  | cons f rest ih => simp [assignOffsets, ih]

theorem assignOffsets_offset_ge (fs : List file_t) (c : Nat) (f : file_t)
    (hf : f ∈ assignOffsets fs c) : c ≤ f.offset := by
  induction fs generalizing c with
  | nil => simp [assignOffsets] at hf
  | cons g rest ih =>
    simp only [assignOffsets, List.mem_cons] at hf
    cases hf with
    | inl h => subst h; simp
    | inr h => exact le_trans (Nat.le_add_right c g.size) (ih _ h)

theorem writeData_assign (gs : List file_t) (out : List Nat)
    (h : ∀ g ∈ gs, g.size = g.disk_content.length) :
    writeData out (assignOffsets gs out.length) =
      out ++ (gs.map (fun g => g.disk_content)).flatten := by
  induction gs generalizing out with
  | nil => simp [assignOffsets, writeData]
  | cons g rest ih =>
    have hg := h g (by simp)
    simp only [assignOffsets, writeData, List.map_cons, List.flatten_cons]
    rw [chunkLoop_eq]
    simp only [List.drop_zero, hg, List.take_length]
    rw [storeBytes_append]
    have hl : out.length + g.disk_content.length = (out ++ g.disk_content).length := by simp
    rw [hl, ih _ (fun q hq => h q (by simp [hq]))]
    simp

theorem layoutEntries_getD (fs : List file_t) (c i : Nat) (hi : i < fs.length) :
    (layoutEntries fs c).getD i zeroEntry =
      ⟨padName (cstrTrunc ((fs.getD i zeroFile)).pak_path 56),
       (c + sumSizes (fs.take i)) % 4294967296,
       ((fs.getD i zeroFile)).size % 4294967296⟩ := by
  induction fs generalizing c i with
  | nil => simp at hi
  | cons f rest ih =>
    cases i with
    | zero => simp [layoutEntries, sumSizes]
    | succ j =>
      have hj : j < rest.length := by simpa using hi
      simp only [layoutEntries, List.getD_cons_succ, List.take_succ_cons]
      rw [ih _ j hj]
      have hs : c + sumSizes (f :: rest.take j) = c + f.size + sumSizes (rest.take j) := by
        simp [sumSizes]
        omega
      rw [hs]

theorem layoutEntries_names (fs : List file_t) (c : Nat) :
    (layoutEntries fs c).map (fun e => entryName e.name) =
      fs.map (fun f => entryName (padName (cstrTrunc f.pak_path 56))) := by
  induction fs generalizing c with
  | nil => rfl
  | cons f rest ih => simp [layoutEntries, ih]

theorem flatten_len_64 (es : List pak_file_t) (h : ∀ e ∈ es, e.name.length = 56) :
    (es.map encodeEntry).flatten.length = 64 * es.length := by
  induction es with
  | nil => rfl
  | cons e rest ih =>
    simp only [List.map_cons, List.flatten_cons, List.length_append, List.length_cons]
    rw [encodeEntry_length e (h e (by simp)), ih (fun q hq => h q (by simp [hq]))]
    ring

theorem flatten_slice (cs : List (List Nat)) (i : Nat) (hi : i < cs.length) (pre : List Nat) :
    ((pre ++ cs.flatten).drop (pre.length + ((cs.take i).map List.length).sum)).take
        ((cs.getD i [])).length = cs.getD i [] := by
  induction cs generalizing i pre with
  | nil => simp at hi
  | cons c rest ih =>
    cases i with
    | zero =>
      simp only [List.take_zero, List.map_nil, List.sum_nil, Nat.add_zero,
        List.getD_cons_zero, List.flatten_cons]
      rw [List.drop_left, List.take_left]
    | succ j =>
      have hj : j < rest.length := by simpa using hi
      simp only [List.getD_cons_succ, List.flatten_cons, List.take_succ_cons,
        List.map_cons, List.sum_cons]
      have hre : pre ++ (c ++ rest.flatten) = (pre ++ c) ++ rest.flatten := by
        simp [List.append_assoc]
      have hnum : pre.length + (c.length + ((rest.take j).map List.length).sum) =
          (pre ++ c).length + ((rest.take j).map List.length).sum := by
        simp
        omega
      rw [hre, hnum]
      exact ih j hj (pre ++ c)

/-! Lemmas about the reader state observers. -/

theorem enumerate_length (st : pak_archive) : st.enumerate.length = st.file_count := by
  simp [pak_archive.enumerate, pak_archive.file_count]

theorem enumerate_getD (st : pak_archive) (i : Nat) (hi : i < st.file_count) :
    st.enumerate.getD i ([], 0, 0) =
      (entryName ((st.files.getD i zeroEntry)).name,
       (st.files.getD i zeroEntry).offset, (st.files.getD i zeroEntry).size) := by
  unfold pak_archive.enumerate
  have hi2 : i < st.files.length := hi
  rw [List.getD_eq_getElem?_getD, List.getElem?_map, List.getElem?_range hi2]
  rfl

/-! Inversion lemmas for openFile: the lookup map of a successfully opened
archive is the populated index of its loaded table; any failing open leaves
the lookup map empty. -/

theorem openFile_true_lookup (st0 st : pak_archive) (src : Option (List Nat))
    (h : pak_archive.openFile st0 src = OpenOutcome.ret true st) :
    st.lookupMap = populateLookup st.files := by
  cases src with
  | none => simp [pak_archive.openFile] at h
  | some bytes =>
    simp only [pak_archive.openFile] at h
    split at h
    · simp at h
    · split at h
      · simp at h
      · split at h
        · simp at h
        · split at h
          · simp at h
          · injection h with h1 h2
            subst h2
            rfl

theorem openFile_false_lookup (st0 st : pak_archive) (src : Option (List Nat))
    (h : pak_archive.openFile st0 src = OpenOutcome.ret false st) :
    st.lookupMap = [] := by
  cases src with
  | none =>
    simp only [pak_archive.openFile] at h
    injection h with h1 h2
    subst h2
    rfl
  | some bytes =>
    simp only [pak_archive.openFile] at h
    split at h
    · injection h with h1 h2; subst h2; rfl
    · split at h
      · injection h with h1 h2; subst h2; rfl
      · split at h
        · simp at h
        · split at h
          · injection h with h1 h2; subst h2; rfl
          · simp at h

theorem mapFind_nil (k : List Nat) : mapFind [] k = none := rfl

/-- Opening the concatenation of a well formed header, an encoded nonempty
entry table and a data region parses back exactly the table and populates the
lookup index from it. -/
theorem openFile_parse (st0 : pak_archive) (es : List pak_file_t) (data : List Nat)
    (hTable : ∀ e ∈ es, e.name.length = 56 ∧ e.offset < 4294967296 ∧ e.size < 4294967296)
    (hne : es.length ≠ 0) (hfit : 64 * es.length < 4294967296) :
    pak_archive.openFile st0
      (some ([80, 65, 67, 75] ++ (le32 12 ++ (le32 (64 * es.length) ++
        ((es.map encodeEntry).flatten ++ data))))) =
      OpenOutcome.ret true ⟨true, es, PakError.NoError, populateLookup es⟩ := by
  have hflat : (es.map encodeEntry).flatten.length = 64 * es.length :=
    flatten_len_64 es (fun e he => (hTable e he).1)
  set bs : List Nat := [80, 65, 67, 75] ++ (le32 12 ++ (le32 (64 * es.length) ++
    ((es.map encodeEntry).flatten ++ data))) with hbs
  have hlen : bs.length = 12 + 64 * es.length + data.length := by
    rw [hbs]
    simp [le32, hflat]
    omega
  have htake : bs.take 4 = [80, 65, 67, 75] := by
    rw [hbs]
    exact List.take_left' rfl
  have hdrop4 : decodeLe32 (bs.drop 4) = 12 := by
    rw [hbs, List.drop_left' (by rfl : ([80, 65, 67, 75] : List Nat).length = 4),
      decodeLe32_le32]
  have hdrop8 : decodeLe32 (bs.drop 8) = 64 * es.length := by
    have hre : bs = ([80, 65, 67, 75] ++ le32 12) ++
        (le32 (64 * es.length) ++ ((es.map encodeEntry).flatten ++ data)) := by
      rw [hbs]
      simp [List.append_assoc]
    rw [hre, List.drop_left' (by simp [le32]), decodeLe32_le32, Nat.mod_eq_of_lt hfit]
  have hread : readEntries bs 12 es.length = es := by
    have hpre : ([80, 65, 67, 75] ++ le32 12 ++ le32 (64 * es.length) : List Nat).length
        = 12 := by simp [le32]
    have hre : bs = ([80, 65, 67, 75] ++ le32 12 ++ le32 (64 * es.length)) ++
        (es.map encodeEntry).flatten ++ data := by
      rw [hbs]
      simp [List.append_assoc]
    rw [hre, show (12 : Nat) = ([80, 65, 67, 75] ++ le32 12 ++
        le32 (64 * es.length) : List Nat).length from hpre.symm]
    exact readEntries_append _ data es hTable
  simp only [pak_archive.openFile]
  rw [if_neg (by omega), if_neg (by rw [htake]; exact fun hc => hc rfl), hdrop4, hdrop8,
    Nat.mul_div_cancel_left es.length (by norm_num : 0 < 64),
    if_neg hne, if_neg (not_not_intro (by omega)), hread]

theorem lookups_fail_of_empty (st : pak_archive) (bytes name : List Nat) (sz : Nat)
    (h : st.lookupMap = []) :
    st.read_file bytes name sz = (false, []) ∧
      st.extract_file bytes name = none ∧ st.stat name = none := by
  refine ⟨?_, ?_, ?_⟩ <;>
    simp [pak_archive.read_file, pak_archive.extract_file, pak_archive.stat, h, mapFind]

/-! Helper lemmas for the round trip proof. -/

theorem getD_map {α β : Type} (l : List α) (f : α → β) (i : Nat) (hi : i < l.length)
    (d : β) : (l.map f).getD i d = f (l.get ⟨i, hi⟩) := by
  rw [List.getD_eq_getElem?_getD, List.getElem?_map, List.getElem?_eq_getElem hi]
  rfl

theorem sumSizes_take_toPending (inputs : List (List Nat × List Nat)) (i : Nat) :
    sumSizes ((inputs.map toPending).take i) =
      (((inputs.map fun p => p.2).take i).map List.length).sum := by
  simp only [sumSizes, ← List.map_take, List.map_map]
  rfl

theorem sumSizes_map_toPending (inputs : List (List Nat × List Nat)) :
    sumSizes (inputs.map toPending) = ((inputs.map fun p => p.2.length)).sum := by
  simp only [sumSizes, List.map_map]
  rfl

theorem sumSizes_append (a b : List file_t) :
    sumSizes (a ++ b) = sumSizes a + sumSizes b := by
  simp [sumSizes]

theorem sumSizes_take_le (fs : List file_t) (i : Nat) :
    sumSizes (fs.take i) ≤ sumSizes fs := by
  have h : sumSizes (fs.take i) + sumSizes (fs.drop i) = sumSizes fs := by
    rw [← sumSizes_append, List.take_append_drop]
  omega

theorem layoutEntries_wf (fs : List file_t) (c : Nat) :
    ∀ e ∈ layoutEntries fs c,
      e.name.length = 56 ∧ e.offset < 4294967296 ∧ e.size < 4294967296 := by
  intro e he
  obtain ⟨⟨f, hf, hname⟩, ho, hs⟩ := layoutEntries_mem fs c e he
  exact ⟨by rw [hname]; exact padName_length _ (cstrTrunc_length _ _), ho, hs⟩

theorem table_names (inputs : List (List Nat × List Nat)) (c : Nat)
    (hvalid : ∀ p ∈ inputs, p.1.length ≤ 56 ∧ 0 ∉ p.1 ∧ p.2.length ≤ 4294967295) :
    (layoutEntries (inputs.map toPending) c).map (fun e => entryName e.name) =
      inputs.map (fun p => p.1) := by
  rw [layoutEntries_names, List.map_map]
  refine List.map_congr_left ?_
  intro p hp
  obtain ⟨h1, h2, h3⟩ := hvalid p hp
  show entryName (padName (cstrTrunc (toPending p).pak_path 56)) = p.1
  rw [show (toPending p).pak_path = p.1 from rfl, cstrTrunc_eq_self p.1 h1 h2,
    entryName_padName p.1 h1 h2]

/-- pak_builder.write on a pending list produced by valid registrations,
rewritten into the parse shape: header, encoded table, concatenated data. -/
theorem write_of_pending (inputs : List (List Nat × List Nat))
    (hfit : 64 * inputs.length < 4294967296) :
    (pak_builder.write ⟨inputs.map toPending⟩).1 =
      [80, 65, 67, 75] ++ (le32 12 ++ (le32 (64 * inputs.length) ++
        (((layoutEntries (inputs.map toPending) (12 + 64 * inputs.length)).map
            encodeEntry).flatten ++
          ((inputs.map fun p => p.2)).flatten))) := by
  have hsize : 64 * (inputs.map toPending).length % 4294967296 = 64 * inputs.length := by
    rw [List.length_map]
    exact Nat.mod_eq_of_lt hfit
  have hflatlen :
      ((layoutEntries (inputs.map toPending) (12 + 64 * inputs.length)).map
          encodeEntry).flatten.length = 64 * inputs.length := by
    rw [flatten_len_64 _ (fun e he => (layoutEntries_wf _ _ e he).1), layoutEntries_length,
      List.length_map]
  simp only [pak_builder.write, hsize]
  have hout0 : ([80, 65, 67, 75] ++ le32 12 ++ le32 (64 * inputs.length) ++
      ((layoutEntries (inputs.map toPending) (12 + 64 * inputs.length)).map
        encodeEntry).flatten).length = 12 + 64 * inputs.length := by
    simp only [List.length_append, hflatlen]
    simp [le32]
  have key : ∀ out : List Nat, out.length = 12 + 64 * inputs.length →
      writeData out (assignOffsets (inputs.map toPending) (12 + 64 * inputs.length)) =
        out ++ ((inputs.map fun p => p.2)).flatten := by
    intro out hout
    rw [← hout, writeData_assign _ _ (by
      intro g hg
      obtain ⟨q, hq, rfl⟩ := List.mem_map.mp hg
      rfl)]
    have hcont : (inputs.map toPending).map (fun g => g.disk_content) =
        inputs.map fun p => p.2 := by
      rw [List.map_map]
      rfl
    rw [hcont]
  rw [key _ hout0]
  simp [List.append_assoc]

/-! Lemmas showing the data pass never rewrites the 12 byte header: every
assigned data offset is at least the header size. -/

theorem storeBytes_take12 (buf data : List Nat) (pos : Nat) (h12 : 12 ≤ pos)
    (hbl : 12 ≤ buf.length) :
    (storeBytes buf pos data).take 12 = buf.take 12 ∧
      12 ≤ (storeBytes buf pos data).length := by
  unfold storeBytes
  have hl : 12 ≤ (buf.take pos).length := by
    simp [List.length_take]
    omega
  constructor
  · rw [List.append_assoc, List.append_assoc,
      List.take_append_of_le_length hl, List.take_take]
    congr 1
    omega
  · calc (12 : Nat) ≤ (buf.take pos).length := hl
      _ ≤ _ := by simp

theorem writeData_take12 (fs : List file_t) (out : List Nat) (hbl : 12 ≤ out.length)
    (hoff : ∀ f ∈ fs, 12 ≤ f.offset) :
    (writeData out fs).take 12 = out.take 12 ∧ 12 ≤ (writeData out fs).length := by
  induction fs generalizing out with
  | nil => exact ⟨rfl, hbl⟩
  | cons f rest ih =>
    obtain ⟨h1, h2⟩ := storeBytes_take12 out (chunkLoop f.disk_content 0 f.size)
      f.offset (hoff f (by simp)) hbl
    obtain ⟨h3, h4⟩ := ih _ h2 (fun g hg => hoff g (by simp [hg]))
    exact ⟨h3.trans h1, h4⟩

/-- Core round trip statement: building an archive from a nonempty valid list
of (name, content) pairs with pairwise distinct names, all of it within the
32 bit layout bound, then opening the output parses one table entry per pair,
and extracting each registered name streams back exactly its content. -/
theorem roundtrip_core (inputs : List (List Nat × List Nat))
    (hne : inputs ≠ [])
    (hnd : ((inputs.map fun p => p.1)).Nodup)
    (hvalid : ∀ p ∈ inputs, p.1.length ≤ 56 ∧ 0 ∉ p.1 ∧ p.2.length ≤ 4294967295)
    (hfit : 12 + 64 * inputs.length + ((inputs.map fun p => p.2.length)).sum
      < 4294967296) :
    ∃ st : pak_archive,
      pak_archive.openFile pak_archive.init
          (some (pak_builder.write ⟨inputs.map toPending⟩).1) = OpenOutcome.ret true st ∧
      st.file_count = inputs.length ∧ st.good = true ∧
      ∀ p ∈ inputs,
        st.extract_file ((pak_builder.write ⟨inputs.map toPending⟩).1) p.1 = some p.2 := by
  have hfit64 : 64 * inputs.length < 4294967296 := by omega
  have hw := write_of_pending inputs hfit64
  set table := layoutEntries (inputs.map toPending) (12 + 64 * inputs.length) with htab
  set cs : List (List Nat) := inputs.map fun p => p.2 with hcsdef
  have htlen : table.length = inputs.length := by
    rw [htab, layoutEntries_length, List.length_map]
  have hflatlen : ((table.map encodeEntry)).flatten.length = 64 * inputs.length := by
    rw [flatten_len_64 _ (fun e he => (layoutEntries_wf _ _ e he).1), htlen]
  have hopen := openFile_parse pak_archive.init table cs.flatten
    (by rw [htab]; exact layoutEntries_wf _ _)
    (by rw [htlen]; intro h0; exact hne (List.length_eq_zero.mp h0))
    (by rw [htlen]; exact hfit64)
  rw [htlen] at hopen
  refine ⟨⟨true, table, PakError.NoError, populateLookup table⟩, ?_, htlen, rfl, ?_⟩
  · rw [hw]
    exact hopen
  · intro p hp
    obtain ⟨⟨i, hi⟩, hget⟩ := List.mem_iff_get.mp hp
    obtain ⟨h1, h2, h3⟩ := hvalid p hp
    have hi' : i < (inputs.map toPending).length := by
      rw [List.length_map]
      exact hi
    have hitab : i < table.length := by
      rw [htlen]
      exact hi
    have hpd : (inputs.map toPending).getD i zeroFile = toPending p := by
      rw [getD_map inputs toPending i hi zeroFile, hget]
    have hgetD : table.getD i zeroEntry =
        ⟨padName p.1,
         (12 + 64 * inputs.length + sumSizes ((inputs.map toPending).take i)) % 4294967296,
         p.2.length % 4294967296⟩ := by
      rw [htab, layoutEntries_getD (inputs.map toPending) _ i hi', hpd,
        show (toPending p).pak_path = p.1 from rfl,
        show (toPending p).size = p.2.length from rfl,
        cstrTrunc_eq_self p.1 h1 h2]
    have hsum_le : sumSizes ((inputs.map toPending).take i) ≤
        ((inputs.map fun p => p.2.length)).sum := by
      rw [← sumSizes_map_toPending]
      exact sumSizes_take_le _ i
    have hoffmod : (12 + 64 * inputs.length +
        sumSizes ((inputs.map toPending).take i)) % 4294967296 =
        12 + 64 * inputs.length + sumSizes ((inputs.map toPending).take i) :=
      Nat.mod_eq_of_lt (by omega)
    have hszmod : p.2.length % 4294967296 = p.2.length := Nat.mod_eq_of_lt (by omega)
    have hnodup_t : ((table.map fun e => entryName e.name)).Nodup := by
      rw [htab, table_names inputs _ hvalid]
      exact hnd
    have hkey : entryName ((table.getD i zeroEntry)).name = p.1 := by
      rw [hgetD]
      exact entryName_padName p.1 h1 h2
    have hfind : mapFind (populateLookup table) p.1 = some i := by
      rw [populateLookup_find, ← hkey]
      exact firstNameIdx_nodup table hnodup_t i hitab
    show pak_archive.extract_file _ _ _ = _
    simp only [pak_archive.extract_file, hfind]
    rw [hgetD]
    show some (chunkLoop ((pak_builder.write ⟨inputs.map toPending⟩).1)
      ((12 + 64 * inputs.length + sumSizes ((inputs.map toPending).take i)) % 4294967296)
      (p.2.length % 4294967296)) = some p.2
    rw [hoffmod, hszmod, chunkLoop_eq]
    have hshape : (pak_builder.write ⟨inputs.map toPending⟩).1 =
        ([80, 65, 67, 75] ++ le32 12 ++ le32 (64 * inputs.length) ++
          ((table.map encodeEntry)).flatten) ++ cs.flatten := by
      rw [hw]
      simp [List.append_assoc]
    have hprelen : ([80, 65, 67, 75] ++ le32 12 ++ le32 (64 * inputs.length) ++
        ((table.map encodeEntry)).flatten).length = 12 + 64 * inputs.length := by
      simp only [List.length_append, hflatlen]
      simp [le32]
    have hsum_take : sumSizes ((inputs.map toPending).take i) =
        (((cs.take i)).map List.length).sum := by
      rw [hcsdef]
      exact sumSizes_take_toPending inputs i
    have hcsi : cs.getD i [] = p.2 := by
      rw [hcsdef, getD_map inputs _ i hi, hget]
    have hcslen : i < cs.length := by
      rw [hcsdef, List.length_map]
      exact hi
    rw [hshape, hsum_take, ← hprelen, ← hcsi]
    exact congrArg some (flatten_slice cs i hcslen _)

/-! Claim theorems. -/

/-- C1 counterexample: the claim quantifies over every set of (name, content)
pairs, but registering the two pairs ([97], [1]) and ([97], [2]) -- the same
name with different contents -- builds an archive from which extracting the
name [97] yields [1], the earlier registration; the bytes [2] of the other
pair are never reproduced by extraction, so the round trip fails as stated. -/
theorem C1_counterexample :
    (registerAll ⟨[]⟩ [([97], [1]), ([97], [2])]).1 = true ∧
    pak_archive.openFile pak_archive.init (some dupArchive) =
      OpenOutcome.ret true dupState ∧
    dupState.file_count = 2 ∧
    dupState.extract_file dupArchive [97] = some [1] ∧
    ¬ dupState.extract_file dupArchive [97] = some [2] := by
  decide

/-- C1 (amended): for every NONEMPTY list of (name, content) pairs whose
names are pairwise distinct, NUL free and at most 56 bytes, whose contents
are at most 4294967295 bytes, and whose total archive size stays below 2 to
the 32, registering them all with add_file succeeds, writing the archive with
write and opening the result with open succeeds, file_count equals the number
of files registered, and extract_file on each name reproduces the original
content bytes exactly.  (The original claim fails for duplicate names, for
the empty set -- opening a zero entry archive throws out of std::vector::at
-- and for totals past 2 to the 32, where offsets truncate.) -/
theorem C1_round_trip (inputs : List (List Nat × List Nat))
    (hne : inputs ≠ [])
    (hnd : ((inputs.map fun p => p.1)).Nodup)
    (hvalid : ∀ p ∈ inputs, p.1.length ≤ 56 ∧ 0 ∉ p.1 ∧ p.2.length ≤ 4294967295)
    (hfit : 12 + 64 * inputs.length + ((inputs.map fun p => p.2.length)).sum
      < 4294967296) :
    (registerAll ⟨[]⟩ inputs).1 = true ∧
    ∃ st : pak_archive,
      pak_archive.openFile pak_archive.init
          (some ((registerAll ⟨[]⟩ inputs).2.write).1) = OpenOutcome.ret true st ∧
      st.file_count = inputs.length ∧ st.good = true ∧
      ∀ p ∈ inputs,
        st.extract_file (((registerAll ⟨[]⟩ inputs).2.write).1) p.1 = some p.2 := by
  have hreg := registerAll_valid inputs ⟨[]⟩ hvalid
  have hreg2 : (registerAll ⟨[]⟩ inputs).2 = ⟨inputs.map toPending⟩ := by
    rw [hreg]
    simp
  refine ⟨by rw [hreg], ?_⟩
  rw [hreg2]
  exact roundtrip_core inputs hne hnd hvalid hfit

/-- Witness for C1: the two file input [([97], [1]), ([98], [2, 3])]
satisfies every hypothesis and the round trip holds for it. -/
theorem C1_witness :
    (([([97], [1]), ([98], [2, 3])] : List (List Nat × List Nat)) ≠ []) ∧
    ((registerAll ⟨[]⟩ [([97], [1]), ([98], [2, 3])]).1 = true ∧
     ∃ st : pak_archive,
       pak_archive.openFile pak_archive.init
           (some ((registerAll ⟨[]⟩ [([97], [1]), ([98], [2, 3])]).2.write).1) =
         OpenOutcome.ret true st ∧
       st.file_count = ([([97], [1]), ([98], [2, 3])] :
          List (List Nat × List Nat)).length ∧
       st.good = true ∧
       ∀ p ∈ ([([97], [1]), ([98], [2, 3])] : List (List Nat × List Nat)),
         st.extract_file
           (((registerAll ⟨[]⟩ [([97], [1]), ([98], [2, 3])]).2.write).1) p.1 =
           some p.2) :=
  ⟨by decide,
   C1_round_trip [([97], [1]), ([98], [2, 3])] (by decide) (by decide) (by decide)
     (by decide)⟩

/-- C2 (code bug): opening the archive that pak_builder.write produces from
zero registered files does not succeed with file_count 0 as the claim and the
spec require; the source calls m_files.at(0) on the empty resized vector,
which throws std::out_of_range. -/
theorem C2_zero_table_crash :
    pak_archive.openFile pak_archive.init (some ((pak_builder.write ⟨[]⟩)).1) =
      OpenOutcome.thrown ⟨true, [], PakError.NoError, []⟩ := by
  decide

/-- C3 counterexample: an archive with two entries both decoding to the name
[97]; both entries are kept and enumerated in table order, but name lookup
resolves [97] to index 0 (the EARLIER entry), not to index 1 as the claim
states, because std::unordered_map::insert keeps the existing binding. -/
theorem C3_counterexample :
    pak_archive.openFile pak_archive.init (some c3Archive) =
      OpenOutcome.ret true c3State ∧
    c3State.file_count = 2 ∧
    entryName ((c3State.files.getD 0 zeroEntry)).name = [97] ∧
    entryName ((c3State.files.getD 1 zeroEntry)).name = [97] ∧
    mapFind c3State.lookupMap [97] = some 0 ∧
    ¬ mapFind c3State.lookupMap [97] = some 1 := by
  decide

/-- C3 (amended): for every archive that open loads successfully, sequential
enumeration lists every table entry, duplicates included, in entry table
order, and name based lookup resolves each name to the EARLIEST entry whose
decoded name matches it (first write wins in the index), not the later one. -/
theorem C3_lookup_resolves_earliest (st0 st : pak_archive) (src : Option (List Nat))
    (k : List Nat)
    (h : pak_archive.openFile st0 src = OpenOutcome.ret true st) :
    mapFind st.lookupMap k = firstNameIdx st.files k ∧
    st.enumerate.length = st.file_count ∧
    ∀ i, i < st.file_count →
      st.enumerate.getD i ([], 0, 0) =
        (entryName ((st.files.getD i zeroEntry)).name,
         (st.files.getD i zeroEntry).offset, (st.files.getD i zeroEntry).size) := by
  refine ⟨?_, enumerate_length st, fun i hi => enumerate_getD st i hi⟩
  rw [openFile_true_lookup st0 st src h, populateLookup_find]

/-- Witness for C3: the duplicate name archive opens successfully into
c3State and the amended claim holds there for the name [97]. -/
theorem C3_witness :
    pak_archive.openFile pak_archive.init (some c3Archive) =
      OpenOutcome.ret true c3State ∧
    (mapFind c3State.lookupMap [97] = firstNameIdx c3State.files [97] ∧
     c3State.enumerate.length = c3State.file_count ∧
     ∀ i, i < c3State.file_count →
       c3State.enumerate.getD i ([], 0, 0) =
         (entryName ((c3State.files.getD i zeroEntry)).name,
          (c3State.files.getD i zeroEntry).offset,
          (c3State.files.getD i zeroEntry).size)) :=
  have h : pak_archive.openFile pak_archive.init (some c3Archive) =
      OpenOutcome.ret true c3State := by decide
  ⟨h, C3_lookup_resolves_earliest pak_archive.init c3State (some c3Archive) [97] h⟩

/-- C4 (code bug): read_file computes toread = min(entry.size, max_size) and
then never uses it: the fread requests max_size bytes.  In c4Archive the entry
[97] has size 1 at offset 76 of a 77 byte archive, so min(1, 4) = 1 byte is
available and the claimed behavior would read 1 byte; the source instead
attempts a 4 byte read past the end of the archive and the call fails. -/
theorem C4_read_file_uses_max_size :
    pak_archive.openFile pak_archive.init (some c4Archive) =
      OpenOutcome.ret true c4State ∧
    (c4State.files.getD 0 zeroEntry).size = 1 ∧
    (c4State.files.getD 0 zeroEntry).offset + min 1 4 ≤ c4Archive.length ∧
    c4State.read_file c4Archive [97] 4 = (false, []) := by
  decide

/-- C5 (code bug): opening c5Bytes (valid magic, table size 64, no table
bytes) fails with InvalidFileEntry and good() false as the claim says, but the
failed open is NOT observably identical to the closed state: the entry vector
was resized before the failed table read and keeps one zero filled record, so
file_count() returns 1 instead of 0. -/
theorem C5_partial_state_after_failed_open :
    pak_archive.openFile pak_archive.init (some c5Bytes) =
      OpenOutcome.ret false c5State ∧
    c5State.last_error = PakError.InvalidFileEntry ∧
    c5State.good = false ∧
    c5State.lookupMap = [] ∧
    c5State.file_count = 1 := by
  decide

/-- C6 (code bug): the source never checks that table_size is a multiple of
64.  c6Bytes declares a 65 byte table (65 % 64 = 1) and carries 65 further
bytes, so the bulk fread succeeds -- in C++ it writes 65 bytes into the 64
byte buffer resized for 65 / 64 = 1 record, a heap overflow -- and open
returns true with NoError instead of failing with InvalidFileEntry. -/
theorem C6_no_multiple_of_64_check :
    65 % 64 ≠ 0 ∧
    pak_archive.openFile pak_archive.init (some c6Bytes) =
      OpenOutcome.ret true c6State ∧
    c6State.last_error = PakError.NoError ∧
    c6State.good = true ∧
    c6State.file_count = 1 := by
  decide

/-- C7 counterexample: in the pending list c7Pending the first file has size
4294967295, so the second data offset 12 + 64*2 + 4294967295 = 4294967435
does not fit the uint32 entry field and is stored as 139; the table pass of
write therefore does not assign the claimed cumulative offset. -/
theorem C7_counterexample :
    (layoutEntries c7Pending (12 + 64 * 2)).map (fun e => e.offset) = [140, 139] ∧
    ¬ (layoutEntries c7Pending (12 + 64 * 2)).map (fun e => e.offset) =
        [140, 12 + 64 * 2 + 4294967295] := by
  decide

/-- C7 (amended): write emits a header whose table offset is 12 and whose
table size is 64*n reduced modulo 2 to the 32 (the uint32 store), assigns
file i the data offset (12 + 64*n % 2^32 + s_0 + ... + s_(i-1)) % 2^32 in its
table entry -- the cumulative sum exactly as claimed whenever it fits 32 bits,
truncated otherwise -- and two writes of the same pending list produce
identical output. -/
theorem C7_deterministic_layout (b : pak_builder) (i : Nat)
    (hi : i < b.m_files.length) :
    ((b.write).1.take 12 =
      [80, 65, 67, 75] ++ le32 12 ++ le32 (64 * b.m_files.length % 4294967296)) ∧
    ((layoutEntries b.m_files (12 + 64 * b.m_files.length % 4294967296)).getD i
        zeroEntry).offset =
      (12 + 64 * b.m_files.length % 4294967296 + sumSizes (b.m_files.take i)) %
        4294967296 ∧
    ∀ b2 : pak_builder, b2.m_files = b.m_files → b2.write = b.write := by
  refine ⟨?_, ?_, ?_⟩
  · simp only [pak_builder.write]
    have hof : ∀ f ∈ assignOffsets b.m_files
        (12 + 64 * b.m_files.length % 4294967296), 12 ≤ f.offset := by
      intro f hf
      calc (12 : Nat) ≤ 12 + 64 * b.m_files.length % 4294967296 := by omega
        _ ≤ f.offset := assignOffsets_offset_ge _ _ f hf
    have hbl : 12 ≤ ([80, 65, 67, 75] ++ le32 12 ++
        le32 (64 * b.m_files.length % 4294967296) ++
        ((layoutEntries b.m_files
          (12 + 64 * b.m_files.length % 4294967296)).map encodeEntry).flatten).length := by
      simp [le32]
    obtain ⟨hp, -⟩ := writeData_take12 _ _ hbl hof
    rw [hp]
    exact List.take_append_of_le_length (by simp [le32])
  · rw [layoutEntries_getD b.m_files _ i hi]
  · intro b2 h2
    cases b2
    cases b
    simp only at h2
    rw [h2]

/-- Witness for C7: a builder with one registered one byte file satisfies the
index bound and the layout equations at i = 0. -/
theorem C7_witness :
    0 < (c7Builder.m_files).length ∧
    (((c7Builder.write).1.take 12 =
      [80, 65, 67, 75] ++ le32 12 ++
        le32 (64 * c7Builder.m_files.length % 4294967296)) ∧
    ((layoutEntries c7Builder.m_files
        (12 + 64 * c7Builder.m_files.length % 4294967296)).getD 0
        zeroEntry).offset =
      (12 + 64 * c7Builder.m_files.length % 4294967296 +
        sumSizes (c7Builder.m_files.take 0)) % 4294967296 ∧
    ∀ b2 : pak_builder, b2.m_files = c7Builder.m_files → b2.write = c7Builder.write) :=
  ⟨by decide, C7_deterministic_layout c7Builder 0 (by decide)⟩

/-- C8: add_file fails and leaves the pending list unchanged when the name is
longer than 56 bytes, and likewise when the source length exceeds UINT32_MAX;
otherwise (for NUL free names, which C strings force) it appends exactly one
pending record carrying the snapshotted size and the given name. -/
theorem C8_add_file_validation (b : pak_builder) (content name : List Nat) :
    (56 < name.length → b.add_file content name = (false, b)) ∧
    (4294967295 < content.length → b.add_file content name = (false, b)) ∧
    (name.length ≤ 56 → content.length ≤ 4294967295 → 0 ∉ name →
      b.add_file content name =
        (true, ⟨b.m_files ++ [⟨content, name, 0, content.length⟩]⟩)) := by
  refine ⟨?_, ?_, ?_⟩
  · intro h
    unfold pak_builder.add_file
    rw [if_pos h]
  · intro h
    unfold pak_builder.add_file
    by_cases hn : 56 < name.length
    · rw [if_pos hn]
    · rw [if_neg hn, if_pos h]
  · intro h1 h2 h3
    exact add_file_ok b content name h1 h3 h2

/-- Witness for C8: a 57 byte name is rejected without touching the builder,
and a valid registration appends exactly one record. -/
theorem C8_witness :
    (56 < (List.replicate 57 97).length ∧
      pak_builder.add_file ⟨[]⟩ [] (List.replicate 57 97) = (false, ⟨[]⟩)) ∧
    (pak_builder.add_file ⟨[]⟩ [5] [97] = (true, ⟨[⟨[5], [97], 0, 1⟩]⟩)) :=
  ⟨⟨by decide,
    (C8_add_file_validation ⟨[]⟩ [] (List.replicate 57 97)).1 (by decide)⟩,
   (C8_add_file_validation ⟨[]⟩ [5] [97]).2.2 (by decide) (by decide) (by decide)⟩

/-- C9 counterexample: after a successful write of a builder holding one
pending file, the pending list still holds that record -- it has length 1 and
is not empty, contradicting the claim that write consumes and discards it. -/
theorem C9_counterexample :
    ((c9Builder.write).2).m_files.length = 1 ∧
    ¬ ((c9Builder.write).2).m_files = [] := by
  decide

/-- C9 (amended): write does NOT discard the pending records: after a
successful write the pending list has the same length and carries the same
records (same source content, stored name and size; only the offset fields
were filled in by the table pass).  The list is never cleared by write. -/
theorem C9_pending_list_retained (b : pak_builder) :
    ((b.write).2).m_files.length = b.m_files.length ∧
    ((b.write).2).m_files.map (fun f => (f.disk_content, f.pak_path, f.size)) =
      b.m_files.map (fun f => (f.disk_content, f.pak_path, f.size)) := by
  simp only [pak_builder.write]
  exact ⟨assignOffsets_length _ _, assignOffsets_strip _ _⟩

/-- C10: every name lookup on a reader in the closed state fails with no
observable effect: on a freshly constructed reader, on a reader after
close(), and on a reader left behind by ANY failed open (whose lookup index
is empty on every failure path), read_file returns false with nothing read,
extract_file fails, and stat fails. -/
theorem C10_closed_reader_lookups_fail (st st2 : pak_archive)
    (src : Option (List Nat)) (bytes name : List Nat) (sz : Nat)
    (hfail : pak_archive.openFile st src = OpenOutcome.ret false st2) :
    ((st.close).read_file bytes name sz = (false, []) ∧
     (st.close).extract_file bytes name = none ∧
     (st.close).stat name = none) ∧
    (pak_archive.init.read_file bytes name sz = (false, []) ∧
     pak_archive.init.extract_file bytes name = none ∧
     pak_archive.init.stat name = none) ∧
    (st2.read_file bytes name sz = (false, []) ∧
     st2.extract_file bytes name = none ∧
     st2.stat name = none) :=
  ⟨lookups_fail_of_empty _ bytes name sz rfl,
   lookups_fail_of_empty _ bytes name sz rfl,
   lookups_fail_of_empty _ bytes name sz (openFile_false_lookup st st2 src hfail)⟩

/-- Witness for C10: a reader whose open failed with OpenFailed (missing
source) rejects the lookup of the name [97], as do the fresh and the closed
reader. -/
theorem C10_witness :
    pak_archive.openFile pak_archive.init none =
      OpenOutcome.ret false ⟨false, [], PakError.OpenFailed, []⟩ ∧
    (((pak_archive.init.close).read_file [] [97] 3 = (false, []) ∧
      (pak_archive.init.close).extract_file [] [97] = none ∧
      (pak_archive.init.close).stat [97] = none) ∧
     (pak_archive.init.read_file [] [97] 3 = (false, []) ∧
      pak_archive.init.extract_file [] [97] = none ∧
      pak_archive.init.stat [97] = none) ∧
     ((⟨false, [], PakError.OpenFailed, []⟩ : pak_archive).read_file [] [97] 3 =
        (false, []) ∧
      (⟨false, [], PakError.OpenFailed, []⟩ : pak_archive).extract_file [] [97] = none ∧
      (⟨false, [], PakError.OpenFailed, []⟩ : pak_archive).stat [97] = none)) :=
  have h : pak_archive.openFile pak_archive.init none =
      OpenOutcome.ret false ⟨false, [], PakError.OpenFailed, []⟩ := by decide
  ⟨h, C10_closed_reader_lookups_fail pak_archive.init _ none [] [97] 3 h⟩

end Paklib

